import Mathlib

/-!
Verification of the OMYA content pipeline (`courses/logic.py`).

The Python source is shallowly embedded: pure string manipulation is
modelled on `List Char` / `String`, the audio-splitting arithmetic on `Nat`
(pydub millisecond positions and byte sizes are integers), external model
calls are oracles (plain functions supplied as parameters), and the
filesystem is a list of existing path names.  Python `try/finally` and
`try/except` are translated into the explicit control flow they denote.
-/

namespace Omya

/-! ## Basic Python string helpers

`pySpace` models the whitespace class used by `str.strip` and by the
regex `\s` for the ASCII range relevant to the pipeline
(space, tab, newline, carriage return, vertical tab, form feed). -/

def pySpace (c : Char) : Bool :=
  c = ' ' || c = '\t' || c = '\n' || c = '\r' || c = Char.ofNat 11 || c = Char.ofNat 12

/-- Model of Python `str.strip()` on the character list: drop whitespace
from the front, then from the back. -/
def pyStripL (l : List Char) : List Char :=
  ((l.dropWhile pySpace).reverse.dropWhile pySpace).reverse

/-- Model of Python `str.strip()`. -/
def pyStrip (s : String) : String :=
  String.mk (pyStripL s.data)

/-- Model of Python `" ".join(bufs)` at the character-list level. -/
def spaceJoinL : List (List Char) → List Char
  | [] => []
  | [p] => p
  | p :: q :: rest => p ++ ' ' :: spaceJoinL (q :: rest)

/-! ## Path normalizer (`to_wsl_path`, logic.py lines 91-106)

`to_wsl_pathCore` is the behaviour on an actual string; `to_wsl_path`
adds the `None` passthrough (`Option`). -/

/-- Does the path start with `/` (Python `p.startswith("/")`)? -/
def startsSlash (s : String) : Bool :=
  match s.data with
  | c :: _ => c = '/'
  | [] => false

/-- Does the path match the Python regex `^[A-Za-z]:\\` ? -/
def winAbs (s : String) : Bool :=
  match s.data with
  | c :: d :: e :: _ => c.isAlpha && d = ':' && e = '\\'
  | _ => false

/-- Python `ch` after `p.replace("\\", "/")` applied character-wise. -/
def slashRepl (c : Char) : Char :=
  if c = '\\' then '/' else c

/-- `to_wsl_path` on a non-`None` string (logic.py lines 96-106):
POSIX-absolute paths and non-matching paths pass through; a
drive-letter absolute path `X:\...` becomes `/mnt/<lower x>/...` with
backslashes replaced by forward slashes (`p2[3:]` drops `X:/`). -/
def to_wsl_pathCore (p : String) : String :=
  if startsSlash p then p
  else if winAbs p then
    match p.data with
    | c :: _ :: _ :: _ =>
      String.mk (("/mnt/".data ++ [c.toLower] ++ ['/']) ++ (p.data.map slashRepl).drop 3)
    | _ => p
  else p

/-- `to_wsl_path` including the `None` passthrough. -/
def to_wsl_path : Option String → Option String
  | none => none
  | some p => some (to_wsl_pathCore p)

/-! ## Sentence splitting (`sentence_split`, logic.py lines 201-204)

`re.split(r"(?<=[.!?])\s+", text.strip())` is modelled as a left-to-right
state machine: a split happens exactly where a `.`/`!`/`?` is followed by
whitespace, and the whole maximal whitespace run is the (consumed)
separator.  State: `(pieces so far (reversed), current piece (reversed),
inside-separator flag)`.  While inside a separator the current piece is
empty; leaving it starts the next piece with the first non-space char. -/

def isPunct (c : Char) : Bool :=
  c = '.' || c = '!' || c = '?'

/-- One character step of the splitter state machine. -/
def splitStep (st : List (List Char) × List Char × Bool) (c : Char) :
    List (List Char) × List Char × Bool :=
  match st with
  | (pieces, acc, sep) =>
    if sep then
      if pySpace c then (pieces, acc, true)
      else (pieces, [c], false)
    else
      if pySpace c && (match acc with | p :: _ => isPunct p | [] => false) then
        (acc.reverse :: pieces, [], true)
      else (pieces, c :: acc, false)

/-- Run the splitter machine over `l` and collect the pieces in order.
A trailing separator yields a final empty piece, exactly as `re.split`
produces a trailing `""`. -/
def splitSentL (l : List Char) : List (List Char) :=
  let st := l.foldl splitStep ([], [], false)
  (st.2.1.reverse :: st.1).reverse

/-- The nonempty sentence pieces of the stripped text, still as char
lists (`re.split` result filtered by `if c`). -/
def sentPieces (l : List Char) : List (List Char) :=
  (splitSentL (pyStripL l)).filter (fun p => p ≠ [])

/-- `sentence_split` (logic.py lines 201-204). -/
def sentence_split (s : String) : List String :=
  (sentPieces s.data).map String.mk

/-! ## Token estimation and chunking (logic.py lines 207-236) -/

/-- `estimate_tokens` in the environment without `tiktoken` (the
documented fallback, logic.py lines 208-210): `max(1, len(text) // 4)`. -/
def estimate_tokens (s : String) : Nat :=
  max 1 (s.data.length / 4)

/-- The sentence-accumulation loop of `chunk_text` (logic.py lines
219-235), at the level of sentence buffers.  `est` is the token
estimator applied to the rendered candidate string
`(" ".join(buf + [s])).strip()`; a chunk is closed when the buffer is
nonempty and the candidate exceeds `target_tokens` or the buffer already
holds `sentences_per_chunk` sentences.  The final nonempty buffer is
flushed.  (The local `buf_tokens` variable in the source is written but
never read, so it is not modelled.) -/
def chunkLoop (est : List Char → Nat) (spc tt : Nat) :
    List (List Char) → List (List Char) → List (List (List Char))
  | [], buf => if buf = [] then [] else [buf]
  | s :: rest, buf =>
    let toks := est (pyStripL (spaceJoinL (buf ++ [s])))
    if buf ≠ [] ∧ (toks > tt ∨ buf.length ≥ spc) then
      buf :: chunkLoop est spc tt rest [s]
    else
      chunkLoop est spc tt rest (buf ++ [s])

/-- Render one closed buffer as the source does:
`" ".join(buf).strip()`. -/
def renderChunk (buf : List (List Char)) : String :=
  String.mk (pyStripL (spaceJoinL buf))

/-- The token estimator `chunk_text` actually calls. -/
def estL (l : List Char) : Nat :=
  estimate_tokens (String.mk l)

/-- `chunk_text` (logic.py lines 215-236): split into sentences, run the
accumulation loop starting from the empty buffer, render each buffer. -/
def chunk_text (s : String) (spc tt : Nat) : List String :=
  (chunkLoop estL spc tt (sentPieces s.data) []).map renderChunk

/-! ## Retry wrapper (`_retry`, logic.py lines 74-84)

`for attempt in range(1, MAX_RETRIES + 1)` calls the operation; a raise
on the final attempt propagates, otherwise `time.sleep(RETRY_BACKOFF **
attempt)` precedes the next attempt.  The operation is an oracle
`res : Nat → Except String α` giving each (1-indexed) attempt's outcome;
the model returns the final outcome (`none` only for an empty attempt
list, which `range(1, 5)` never is), the list of sleep durations in
order, and the number of invocations.  `RETRY_BACKOFF ** attempt` is
exact on powers of two, so the float is modelled as a rational. -/

def MAX_RETRIES : Nat := 4

def RETRY_BACKOFF : ℚ := 2

def retryGo {α : Type} (res : Nat → Except String α) (maxR : Nat) (base : ℚ) :
    List Nat → Option (Except String α) × List ℚ × Nat
  | [] => (none, [], 0)
  | a :: rest =>
    match res a with
    | .ok v => (some (.ok v), [], 1)
    | .error e =>
      if a = maxR then (some (.error e), [], 1)
      else
        let r := retryGo res maxR base rest
        (r.1, base ^ a :: r.2.1, r.2.2 + 1)

/-- `_retry` with the source's constants: attempts `1, 2, 3, 4`. -/
def retryModel {α : Type} (res : Nat → Except String α) :
    Option (Except String α) × List ℚ × Nat :=
  retryGo res MAX_RETRIES RETRY_BACKOFF (List.range' 1 MAX_RETRIES)

/-! ## Quiz generation (`generate_qcm`, logic.py lines 307-339)

The external chat call (through `_retry`) is the oracle `res`; on
success the source returns `resp.choices[0].message.content.strip()` —
nothing else is inspected, validated, or repaired. -/

def generate_qcm (res : Nat → Except String String) (courseMd : String)
    (numQuestions : Nat) : Except String String :=
  match (retryModel res).1 with
  | some (.ok t) => .ok (pyStrip t)
  | some (.error e) => .error e
  | none => .error ""

/-! ## Audio splitting (`split_audio_by_size`, logic.py lines 138-178)

Byte sizes and pydub millisecond positions are `Nat`.  A span is a pair
`(start, end)` in milliseconds; slicing `audio[start:end]` has duration
`end - start` and exporting writes `f"{file_path}_part{i}.mp3"`.
`math.ceil(file_size_bytes / max_bytes)` is modelled as exact ceiling
division.  The existence guard (`FileNotFoundError` raised before any
splitting) is handled by the orchestrator model below; this definition
is the arithmetic of a run on an existing file. -/

def ceilDivN (a b : Nat) : Nat :=
  (a + b - 1) / b

/-- The `while start < len(audio)` loop (logic.py lines 160-165):
spans of length `pd` from `start`, the last clipped to `len`. -/
def mkSpansGo (pd len start : Nat) : List (Nat × Nat) :=
  if h : start < len ∧ 0 < pd then
    (start, min (start + pd) len) :: mkSpansGo pd len (min (start + pd) len)
  else []
termination_by len - start
decreasing_by
  have h1 : start < min (start + pd) len := lt_min (by omega) h.1
  omega

/-- The tiny-tail merge (logic.py lines 167-171): if there are at least
two chunks and the last is shorter than 10 000 ms, concatenate it onto
the previous chunk and drop it. -/
def mergeTinyTail (l : List (Nat × Nat)) : List (Nat × Nat) :=
  match l.reverse with
  | y :: x :: rest =>
    if y.2 - y.1 < 10000 then ((x.1, y.2) :: rest).reverse else l
  | _ => l

/-- The exported part-file name `f"{file_path}_part{i}.mp3"`. -/
def partName (base : String) (i : Nat) : String :=
  base ++ "_part" ++ toString i ++ ".mp3"

/-- `split_audio_by_size` on an existing file: returns the exported part
names paired with the span each one contains.  `fileSize` is the on-disk
byte size, `lenMs` the pydub duration of the decoded audio. -/
def split_audio_by_size (filePath : String) (fileSize maxMb lenMs : Nat) :
    List (String × Nat × Nat) :=
  let fp := to_wsl_pathCore filePath
  let maxBytes := maxMb * 1024 * 1024
  if fileSize ≤ maxBytes then [(partName fp 0, 0, lenMs)]
  else
    let numParts := ceilDivN fileSize maxBytes
    let chunks := mergeTinyTail (mkSpansGo (lenMs / numParts) lenMs 0)
    (chunks.enum).map (fun p => (partName fp p.1, p.2))

/-! ## Filesystem and cleanup (logic.py lines 113-131)

The filesystem is the list of existing path names; `os.remove` deletes a
name (all occurrences — a path exists once).  `rmFails p = true` models
an OS error raised by `os.remove(p)`; `_safe_rm` swallows it, leaving
the file in place. -/

/-- `_safe_rm` (logic.py lines 113-118): `if path and os.path.exists(path):
os.remove(path)` inside `try/except: pass`. -/
def safeRm (rmFails : String → Bool) (path : String) (fs : List String) :
    List String :=
  if path ≠ "" ∧ path ∈ fs then
    if rmFails path then fs else fs.filter (fun q => q ≠ path)
  else fs

/-- Does `name` match the glob pattern `f"{orig}_part*.mp3"`?  That is,
`name = orig ++ "_part" ++ <anything> ++ ".mp3"`. -/
def isSegFile (orig name : String) : Prop :=
  name.data.take (orig.data ++ "_part".data).length = orig.data ++ "_part".data
  ∧ (orig.data ++ "_part".data).length + 4 ≤ name.data.length
  ∧ name.data.drop (name.data.length - 4) = ".mp3".data

instance (orig name : String) : Decidable (isSegFile orig name) := by
  unfold isSegFile; infer_instance

/-- The first phase of `cleanup_audio_files` (logic.py lines 123-125):
`if part_paths:` — truthy means a non-`None`, nonempty list — delete
each listed part file. -/
def cleanupParts (rmFails : String → Bool) (partPaths : Option (List String))
    (fs : List String) : List String :=
  match partPaths with
  | some ps => if ps ≠ [] then ps.foldl (fun f p => safeRm rmFails p f) fs else fs
  | none => fs

/-- `cleanup_audio_files` (logic.py lines 120-131): delete the explicit
part files if the list is truthy, then, if the original path is truthy,
delete every file matching `f"{original_path}_part*.mp3"` and — when
`DELETE_ORIGINAL_AUDIO` is configured — the original itself.  `_safe_rm`
never raises, so the function is total. -/
def cleanup_audio_files (rmFails : String → Bool) (deleteOriginal : Bool)
    (originalPath : Option String) (partPaths : Option (List String))
    (fs : List String) : List String :=
  let fs1 := cleanupParts rmFails partPaths fs
  match originalPath with
  | some orig =>
    if orig ≠ "" then
      let globbed := fs1.filter (fun n => decide (isSegFile orig n))
      let fs2 := globbed.foldl (fun f p => safeRm rmFails p f) fs1
      if deleteOriginal then safeRm rmFails orig fs2 else fs2
    else fs1
  | none => fs1

/-! ## Pipeline orchestration (logic.py lines 369-448, 497-535) -/

/-- The `PipelineOutputs` dataclass (logic.py lines 64-71). -/
structure PipelineOutputs where
  transcript : String
  chunks_preview : List String
  summaries_preview : List String
  course : String
  qcm : String
  exercises : String

/-- `pipeline_from_audio` (logic.py lines 369-418).  The stages inside
the `try` are abstracted by oracles: `createdCount` part files
`f"{path}_part{i}.mp3"` are written by `split_audio_by_size` before it
either returns their names (`splitErr = none`) or raises
(`splitErr = some e`, leaving the local `parts` at `[]`); a later stage
(transcription, chunking, summarization, generation) raises `stageErr`
or the run produces `outs`.  The `finally` block runs
`cleanup_audio_files` (whose own exceptions the source swallows with
`try/except: pass`; the model of `cleanup_audio_files` is total, so that
wrapper is the identity) and the `try` result — value or exception —
passes through.  A missing file raises `FileNotFoundError` before the
`try`, so no cleanup runs on that path. -/
def pipeline_from_audio (rmFails : String → Bool) (deleteOriginal : Bool)
    (audioPath : String) (createdCount : Nat)
    (splitErr stageErr : Option String) (outs : PipelineOutputs)
    (fs : List String) : Except String PipelineOutputs × List String :=
  let ap := to_wsl_pathCore audioPath
  if ap ∈ fs then
    let fsParts := fs ++ (List.range createdCount).map (partName ap)
    let resParts : Except String PipelineOutputs × List String :=
      match splitErr with
      | some e => (.error e, [])
      | none =>
        match stageErr with
        | some e => (.error e, (List.range createdCount).map (partName ap))
        | none => (.ok outs, (List.range createdCount).map (partName ap))
    let fsFinal :=
      cleanup_audio_files rmFails deleteOriginal (some ap) (some resParts.2) fsParts
    (resParts.1, fsFinal)
  else (.error ("FileNotFoundError: " ++ ap), fs)

/-- `pipeline_from_text` (logic.py lines 421-448).  External calls are
oracles (one summarize call per chunk, then one reduce, one course, one
quiz, one exercises call); the second component counts the external
model calls the run makes.  There is no input validation of any kind in
the source. -/
def pipeline_from_text (spc tt : Nat)
    (summarize : String → String) (reduce : List String → String)
    (course qcm exo : String → String) (raw : String) :
    PipelineOutputs × Nat :=
  let transcript := pyStrip raw
  let chunks := chunk_text transcript spc tt
  let summaries := chunks.map summarize
  let outline := reduce summaries
  let c := course outline
  { transcript := transcript
    chunks_preview := chunks.take 3
    summaries_preview := summaries.take 3
    course := c
    qcm := qcm c
    exercises := exo c } |> fun o => (o, chunks.length + 4)

/-- The text branch of `main` (logic.py lines 511-520): if the raw text
is empty after `strip`, print an error and `sys.exit(1)` — before any
pipeline work; otherwise run `pipeline_from_text`.  Result: exit code 1
or the outputs, paired with the number of external model calls made. -/
def main_text (spc tt : Nat)
    (summarize : String → String) (reduce : List String → String)
    (course qcm exo : String → String) (raw : String) :
    Except Nat PipelineOutputs × Nat :=
  if pyStrip raw = "" then (.error 1, 0)
  else
    let r := pipeline_from_text spc tt summarize reduce course qcm exo raw
    (.ok r.1, r.2)

/-! # Theorems -/

/-! ## C7: the path normalizer -/

theorem winAbs_shape (s : String) (h : winAbs s = true) :
    ∃ c rest, s.data = c :: ':' :: '\\' :: rest ∧ c.isAlpha = true := by
  unfold winAbs at h
  rcases hd : s.data with _ | ⟨c, _ | ⟨d, _ | ⟨e, rest⟩⟩⟩ <;> rw [hd] at h
  · simp at h
  · simp at h
  · simp at h
  · simp only [Bool.and_eq_true, decide_eq_true_eq] at h
    obtain ⟨⟨hca, hdc⟩, hec⟩ := h
    subst hdc; subst hec
    exact ⟨c, rest, rfl, hca⟩

theorem startsSlash_mk_slash (l : List Char) :
    startsSlash (String.mk ('/' :: l)) = true := by
  simp [startsSlash]

/-- C7: `to_wsl_path` is idempotent (including the `None` passthrough);
a POSIX-absolute path and a path matching neither pattern are returned
unchanged; a drive-letter absolute path `X:\...` is rewritten to
`/mnt/<lowercased drive>/...` with backslashes turned into forward
slashes; `None` passes through. -/
theorem to_wsl_path_spec_C7 :
    (∀ p : Option String, to_wsl_path (to_wsl_path p) = to_wsl_path p)
    ∧ to_wsl_path none = none
    ∧ (∀ s : String, startsSlash s = true → to_wsl_pathCore s = s)
    ∧ (∀ s : String, startsSlash s = false → winAbs s = false → to_wsl_pathCore s = s)
    ∧ (∀ (c : Char) (rest : List Char), c.isAlpha = true →
        to_wsl_pathCore (String.mk (c :: ':' :: '\\' :: rest)) =
          String.mk ('/' :: 'm' :: 'n' :: 't' :: '/' :: c.toLower :: '/' :: rest.map slashRepl)) := by
  have hpos : ∀ s : String, startsSlash s = true → to_wsl_pathCore s = s := by
    intro s h
    unfold to_wsl_pathCore
    simp [h]
  have hother : ∀ s : String, startsSlash s = false → winAbs s = false →
      to_wsl_pathCore s = s := by
    intro s h1 h2
    unfold to_wsl_pathCore
    simp [h1, h2]
  have hwin : ∀ (c : Char) (rest : List Char), c.isAlpha = true →
      to_wsl_pathCore (String.mk (c :: ':' :: '\\' :: rest)) =
        String.mk ('/' :: 'm' :: 'n' :: 't' :: '/' :: c.toLower :: '/' :: rest.map slashRepl) := by
    intro c rest hc
    have hcslash : ¬ (c = '/') := by
      intro hc'
      rw [hc'] at hc
      exact absurd hc (by decide)
    have h1 : startsSlash (String.mk (c :: ':' :: '\\' :: rest)) = false := by
      simp [startsSlash, hcslash]
    have h2 : winAbs (String.mk (c :: ':' :: '\\' :: rest)) = true := by
      simp [winAbs, hc]
    have hmnt : "/mnt/".data = ['/', 'm', 'n', 't', '/'] := rfl
    unfold to_wsl_pathCore
    rw [h1, h2]
    simp [hmnt, slashRepl, List.drop]
  refine ⟨?_, rfl, hpos, hother, hwin⟩
  intro p
  match p with
  | none => rfl
  | some s =>
    show some (to_wsl_pathCore (to_wsl_pathCore s)) = some (to_wsl_pathCore s)
    congr 1
    by_cases h1 : startsSlash s = true
    · rw [hpos s h1, hpos s h1]
    · by_cases h2 : winAbs s = true
      · obtain ⟨c, rest, hd, hca⟩ := winAbs_shape s h2
        have hs : s = String.mk (c :: ':' :: '\\' :: rest) := by
          cases s with
          | mk data => simp_all
        rw [hs, hwin c rest hca]
        exact hpos _ (startsSlash_mk_slash _)
      · rw [hother s (by simp_all) (by simp_all), hother s (by simp_all) (by simp_all)]

/-- C7 witness: concrete instances of each clause. -/
theorem to_wsl_path_spec_C7_witness :
    to_wsl_path (to_wsl_path (some "C:\\Users\\a\\f.mp3")) =
      to_wsl_path (some "C:\\Users\\a\\f.mp3")
    ∧ to_wsl_pathCore "/already/posix" = "/already/posix"
    ∧ to_wsl_pathCore "relative" = "relative"
    ∧ to_wsl_pathCore (String.mk ('C' :: ':' :: '\\' :: "a".data)) =
        String.mk ('/' :: 'm' :: 'n' :: 't' :: '/' :: 'c' :: '/' :: "a".data.map slashRepl) :=
  ⟨to_wsl_path_spec_C7.1 (some "C:\\Users\\a\\f.mp3"),
   to_wsl_path_spec_C7.2.2.1 "/already/posix" (by decide),
   to_wsl_path_spec_C7.2.2.2.1 "relative" (by decide) (by decide),
   to_wsl_path_spec_C7.2.2.2.2 'C' "a".data (by decide)⟩

/-! ## C2: retry exhaustion -/

/-- C2: an operation that fails on every invocation is invoked exactly
`MAX_RETRIES` (= 4) times, the error of the final attempt is raised
unchanged, and the sleeps performed are exactly
`RETRY_BACKOFF ^ 1, RETRY_BACKOFF ^ 2, RETRY_BACKOFF ^ 3` (2, 4, 8
seconds before attempts 2, 3, 4) — none after the final attempt. -/
theorem retry_exhaustion_C2 {α : Type} (res : Nat → Except String α)
    (errs : Nat → String) (h : ∀ k, res k = .error (errs k)) :
    (retryModel res).2.2 = MAX_RETRIES
    ∧ (retryModel res).1 = some (.error (errs MAX_RETRIES))
    ∧ (retryModel res).2.1 = [RETRY_BACKOFF ^ 1, RETRY_BACKOFF ^ 2, RETRY_BACKOFF ^ 3] := by
  have hr : List.range' 1 MAX_RETRIES = [1, 2, 3, 4] := rfl
  unfold retryModel
  rw [hr]
  simp [retryGo, h 1, h 2, h 3, h 4, MAX_RETRIES]

/-- C2 witness: a concrete always-failing operation. -/
theorem retry_exhaustion_C2_witness :
    (retryModel (fun _ => (.error "boom" : Except String Unit))).2.2 = MAX_RETRIES
    ∧ (retryModel (fun _ => (.error "boom" : Except String Unit))).1 =
        some (.error "boom")
    ∧ (retryModel (fun _ => (.error "boom" : Except String Unit))).2.1 =
        [RETRY_BACKOFF ^ 1, RETRY_BACKOFF ^ 2, RETRY_BACKOFF ^ 3] :=
  retry_exhaustion_C2 (fun _ => .error "boom") (fun _ => "boom") (fun _ => rfl)

/-! ## C8: the quiz generator performs no output validation -/

/-- C8: whatever text the external generation call returns — conforming
to the 6-line grammar or not — `generate_qcm` returns exactly that text
with leading/trailing whitespace stripped; no mechanical validation or
repair happens. -/
theorem generate_qcm_no_validation_C8 (resp courseMd : String) (numQuestions : Nat) :
    generate_qcm (fun _ => .ok resp) courseMd numQuestions = .ok (pyStrip resp) := by
  have hr : List.range' 1 MAX_RETRIES = [1, 2, 3, 4] := rfl
  unfold generate_qcm retryModel
  rw [hr]
  simp [retryGo]

/-! ## C5: empty text input -/

/-- C5 counterexample: `pipeline_from_text` itself performs no
emptiness validation and raises no `ValidationError`: called directly on
the empty string it proceeds to make 4 external model calls (the reduce,
course, quiz and exercises calls). -/
theorem pipeline_text_empty_C5_cex :
    (pipeline_from_text 12 900 (fun _ => "") (fun _ => "") (fun _ => "")
      (fun _ => "") (fun _ => "") "").2 = 4 ∧ ¬ ((4 : Nat) = 0) := by
  constructor
  · rfl
  · decide

/-- C5 amended: the command-line entry point rejects text input that is
empty after trimming with exit code 1 before any external model call is
made (zero calls); the pipeline function itself contains no such check
(see the counterexample). -/
theorem main_text_empty_exit_C5 (spc tt : Nat)
    (summarize : String → String) (reduce : List String → String)
    (course qcm exo : String → String) (raw : String)
    (h : pyStrip raw = "") :
    main_text spc tt summarize reduce course qcm exo raw = (.error 1, 0) := by
  unfold main_text
  rw [if_pos h]

/-- C5 amended witness: whitespace-only input. -/
theorem main_text_empty_exit_C5_witness :
    main_text 12 900 id (fun _ => "") id id id "  " = (.error 1, 0) :=
  main_text_empty_exit_C5 12 900 id (fun _ => "") id id id "  " (by decide)

/-! ## Chunking lemmas (towards C3 and C9) -/

/-- A char list whose head (if any) is not whitespace. -/
def goodHead (l : List Char) : Prop :=
  ∀ c, l.head? = some c → pySpace c = false

theorem goodHead_nil : goodHead [] := by
  intro c h
  simp at h

theorem goodHead_dropWhile (l : List Char) : goodHead (l.dropWhile pySpace) := by
  induction l with
  | nil => exact goodHead_nil
  | cons a t ih =>
    by_cases ha : pySpace a
    · simpa [List.dropWhile, ha] using ih
    · intro c hc
      simp only [List.dropWhile, ha] at hc
      simp only [List.head?, Option.some.injEq] at hc
      rw [hc] at ha
      simpa using ha

theorem dropWhile_append_last {p : Char → Bool} {a : Char} (ha : p a = false) :
    ∀ x : List Char, ∃ s, (x ++ [a]).dropWhile p = s ++ [a] := by
  intro x
  induction x with
  | nil => exact ⟨[], by simp [List.dropWhile, ha]⟩
  | cons c t ih =>
    by_cases hc : p c
    · obtain ⟨s, hs⟩ := ih
      exact ⟨s, by simp [List.dropWhile, hc, hs]⟩
    · exact ⟨c :: t, by simp [List.dropWhile, hc]⟩

theorem goodHead_pyStripL (l : List Char) : goodHead (pyStripL l) := by
  unfold pyStripL
  rcases hm : l.dropWhile pySpace with _ | ⟨a, t⟩
  · exact goodHead_nil
  · have ha : pySpace a = false := goodHead_dropWhile l a (by rw [hm]; rfl)
    obtain ⟨s, hs⟩ := dropWhile_append_last ha t.reverse
    intro c hc
    rw [List.reverse_cons, hs, List.reverse_append] at hc
    simp only [List.reverse_cons, List.reverse_nil, List.nil_append, List.cons_append,
      List.head?, Option.some.injEq] at hc
    rw [← hc]
    exact ha

theorem mem_dropWhile_of_neg {p : Char → Bool} {c : Char} (hc : p c = false) :
    ∀ l : List Char, c ∈ l → c ∈ l.dropWhile p := by
  intro l
  induction l with
  | nil => simp
  | cons a t ih =>
    intro hmem
    by_cases ha : p a
    · have : c ∈ t := by
        rcases List.mem_cons.mp hmem with h | h
        · rw [h] at hc; rw [hc] at ha; simp at ha
        · exact h
      simpa [List.dropWhile, ha] using ih this
    · simpa [List.dropWhile, ha] using hmem

theorem pyStripL_ne_nil_of_mem {l : List Char} {c : Char} (hmem : c ∈ l)
    (hc : pySpace c = false) : pyStripL l ≠ [] := by
  unfold pyStripL
  intro hcon
  have h1 : c ∈ l.dropWhile pySpace := mem_dropWhile_of_neg hc l hmem
  have h2 : c ∈ (l.dropWhile pySpace).reverse := List.mem_reverse.mpr h1
  have h3 : c ∈ (l.dropWhile pySpace).reverse.dropWhile pySpace :=
    mem_dropWhile_of_neg hc _ h2
  rw [← List.mem_reverse] at h3
  rw [hcon] at h3
  simp at h3

theorem pyStripL_eq_nil_of_all {l : List Char} (h : ∀ c ∈ l, pySpace c = true) :
    pyStripL l = [] := by
  unfold pyStripL
  have h1 : l.dropWhile pySpace = [] := List.dropWhile_eq_nil_iff.mpr h
  rw [h1]
  rfl

/-- Invariant of the sentence-splitter machine: with well-formed state
(all finished pieces and the reversed accumulator have non-space heads,
and — when no separator is being consumed and the accumulator is
empty — the remaining input has a non-space head), every piece of the
final output has a non-space head. -/
theorem splitInv (l : List Char) :
    ∀ (pieces : List (List Char)) (acc : List Char) (sep : Bool),
    (∀ p ∈ pieces, goodHead p) →
    goodHead acc.reverse →
    (sep = false → acc = [] → goodHead l) →
    (∀ p ∈ (l.foldl splitStep (pieces, acc, sep)).1, goodHead p)
    ∧ goodHead (l.foldl splitStep (pieces, acc, sep)).2.1.reverse := by
  induction l with
  | nil =>
    intro pieces acc sep h1 h2 _
    exact ⟨h1, h2⟩
  | cons c rest ih =>
    intro pieces acc sep h1 h2 h3
    rw [List.foldl_cons]
    cases sep with
    | false =>
      rcases hacc : acc with _ | ⟨a, t⟩
      · -- empty accumulator: no boundary possible, push the char
        subst hacc
        have hcgood : pySpace c = false := h3 rfl rfl c rfl
        have hstep : splitStep (pieces, [], false) c = (pieces, [c], false) := by
          simp [splitStep, hcgood]
        rw [hstep]
        refine ih _ _ _ h1 ?_ (by intro _ hcon; simp at hcon)
        intro d hd
        simp only [List.reverse_cons, List.reverse_nil, List.nil_append, List.head?,
          Option.some.injEq] at hd
        rw [← hd]; exact hcgood
      · subst hacc
        by_cases hb : (pySpace c && isPunct a) = true
        · -- boundary: close the piece, enter separator
          have hstep : splitStep (pieces, a :: t, false) c =
              ((a :: t).reverse :: pieces, [], true) := by
            simp [splitStep, hb]
          rw [hstep]
          refine ih _ _ _ ?_ goodHead_nil (by intro hcon; simp at hcon)
          intro p hp
          rcases List.mem_cons.mp hp with h | h
          · rw [h]; exact h2
          · exact h1 p h
        · -- append the char to the current piece
          have hstep : splitStep (pieces, a :: t, false) c = (pieces, c :: a :: t, false) := by
            simp only [splitStep, Bool.false_eq_true, if_false]
            rw [if_neg hb]
          rw [hstep]
          refine ih _ _ _ h1 ?_ (by intro _ hcon; simp at hcon)
          intro d hd
          have hne : (a :: t).reverse ≠ [] := by simp
          rw [List.reverse_cons, List.head?_append_of_ne_nil _ hne] at hd
          exact h2 d hd
    | true =>
      by_cases hc : pySpace c
      · have hstep : splitStep (pieces, acc, true) c = (pieces, acc, true) := by
          simp [splitStep, hc]
        rw [hstep]
        exact ih _ _ _ h1 h2 (by intro hcon; simp at hcon)
      · have hstep : splitStep (pieces, acc, true) c = (pieces, [c], false) := by
          simp [splitStep, hc]
        rw [hstep]
        refine ih _ _ _ h1 ?_ (by intro _ hcon; simp at hcon)
        intro d hd
        simp only [List.reverse_cons, List.reverse_nil, List.nil_append, List.head?,
          Option.some.injEq] at hd
        rw [← hd]
        simpa using hc

/-- Every sentence piece is nonempty and starts with a non-space char. -/
theorem sentPieces_good {l : List Char} {p : List Char} (hp : p ∈ sentPieces l) :
    p ≠ [] ∧ goodHead p := by
  unfold sentPieces at hp
  have hmem := List.mem_filter.mp hp
  refine ⟨by simpa using hmem.2, ?_⟩
  have hsplit := hmem.1
  unfold splitSentL at hsplit
  rw [List.mem_reverse, List.mem_cons] at hsplit
  have hinv := splitInv (pyStripL l) [] [] false (by simp)
    goodHead_nil (fun _ _ => goodHead_pyStripL l)
  rcases hsplit with h | h
  · rw [h]; exact hinv.2
  · exact hinv.1 p h

/-- The buffers emitted by the chunking loop, concatenated, are the
input sentences preceded by the initial buffer. -/
theorem chunkLoop_join (est : List Char → Nat) (spc tt : Nat) :
    ∀ (l : List (List Char)) (buf : List (List Char)),
    (chunkLoop est spc tt l buf).join = buf ++ l := by
  intro l
  induction l with
  | nil =>
    intro buf
    by_cases hb : buf = [] <;> simp [chunkLoop, hb]
  | cons s rest ih =>
    intro buf
    rw [chunkLoop]
    split
    · simp [ih]
    · simp [ih]

/-- Every buffer the chunking loop emits has at most
`sentences_per_chunk` sentences (given a positive bound, the running
buffer never exceeds it). -/
theorem chunkLoop_le (est : List Char → Nat) (spc tt : Nat) (hspc : 1 ≤ spc) :
    ∀ (l : List (List Char)) (buf : List (List Char)), buf.length ≤ spc →
    ∀ b ∈ chunkLoop est spc tt l buf, b.length ≤ spc := by
  intro l
  induction l with
  | nil =>
    intro buf hbuf b hb
    by_cases hemp : buf = [] <;> simp [chunkLoop, hemp] at hb
    rw [hb]; exact hbuf
  | cons s rest ih =>
    intro buf hbuf b hb
    rw [chunkLoop] at hb
    split at hb
    · rcases List.mem_cons.mp hb with h | h
      · rw [h]; exact hbuf
      · exact ih [s] (by simpa using hspc) b h
    · rename_i hcond
      refine ih (buf ++ [s]) ?_ b hb
      by_cases hemp : buf = []
      · simpa [hemp] using hspc
      · have : ¬ (Nat.lt tt (est (pyStripL (spaceJoinL (buf ++ [s])))) ∨ spc ≤ buf.length) := by
          intro hor
          exact hcond ⟨hemp, hor⟩
        push_neg at this
        have hlt : buf.length < spc := this.2
        simp only [List.length_append, List.length_cons, List.length_nil]
        omega

/-- The chunking loop never emits an empty buffer. -/
theorem chunkLoop_ne_nil (est : List Char → Nat) (spc tt : Nat) :
    ∀ (l : List (List Char)) (buf : List (List Char)),
    ∀ b ∈ chunkLoop est spc tt l buf, b ≠ [] := by
  intro l
  induction l with
  | nil =>
    intro buf b hb
    by_cases hemp : buf = [] <;> simp [chunkLoop, hemp] at hb
    rw [hb]; exact hemp
  | cons s rest ih =>
    intro buf b hb
    rw [chunkLoop] at hb
    split at hb
    · rename_i hcond
      rcases List.mem_cons.mp hb with h | h
      · rw [h]; exact hcond.1
      · exact ih [s] b h
    · exact ih (buf ++ [s]) b hb

theorem mem_spaceJoinL_head {c : Char} {p : List Char} (hc : c ∈ p) :
    ∀ rest, c ∈ spaceJoinL (p :: rest) := by
  intro rest
  cases rest with
  | nil => simpa [spaceJoinL] using hc
  | cons q t => simp [spaceJoinL, hc]

/-- C3: `chunk_text` renders exactly the buffers of the accumulation
loop, whose concatenation is the original sentence list (no sentence
dropped, duplicated or reordered), and each buffer holds at most
`sentences_per_chunk` sentences. -/
theorem chunk_coverage_C3 (s : String) (spc tt : Nat) (hspc : 1 ≤ spc) :
    chunk_text s spc tt = (chunkLoop estL spc tt (sentPieces s.data) []).map renderChunk
    ∧ (chunkLoop estL spc tt (sentPieces s.data) []).join = sentPieces s.data
    ∧ ∀ b ∈ chunkLoop estL spc tt (sentPieces s.data) [], b.length ≤ spc :=
  ⟨rfl,
   by simpa using chunkLoop_join estL spc tt (sentPieces s.data) [],
   chunkLoop_le estL spc tt hspc (sentPieces s.data) [] (by simp)⟩

/-- C3 witness. -/
theorem chunk_coverage_C3_witness :
    chunk_text "One. Two! Three?" 2 900 =
      (chunkLoop estL 2 900 (sentPieces "One. Two! Three?".data) []).map renderChunk
    ∧ (chunkLoop estL 2 900 (sentPieces "One. Two! Three?".data) []).join =
        sentPieces "One. Two! Three?".data
    ∧ ∀ b ∈ chunkLoop estL 2 900 (sentPieces "One. Two! Three?".data) [],
        b.length ≤ 2 :=
  chunk_coverage_C3 "One. Two! Three?" 2 900 (by decide)

/-- C9: `chunk_text` never emits an empty chunk, and on input that is
empty or whitespace-only it returns the empty list. -/
theorem chunk_no_empty_C9 (s : String) (spc tt : Nat) :
    (∀ c ∈ chunk_text s spc tt, c ≠ "")
    ∧ ((∀ ch ∈ s.data, pySpace ch = true) → chunk_text s spc tt = []) := by
  constructor
  · intro c hc
    unfold chunk_text at hc
    obtain ⟨b, hb, hrender⟩ := List.mem_map.mp hc
    have hbne : b ≠ [] := chunkLoop_ne_nil estL spc tt (sentPieces s.data) [] b hb
    rcases hbuf : b with _ | ⟨p, brest⟩
    · exact absurd hbuf hbne
    · have hpmem : p ∈ (chunkLoop estL spc tt (sentPieces s.data) []).join :=
        List.mem_join.mpr ⟨b, hb, by rw [hbuf]; simp⟩
      rw [chunkLoop_join estL spc tt (sentPieces s.data) [], List.nil_append] at hpmem
      obtain ⟨hpne, hpgood⟩ := sentPieces_good hpmem
      rcases hp : p with _ | ⟨ch, pt⟩
      · exact absurd hp hpne
      · have hch : pySpace ch = false := by
          apply hpgood
          rw [hp]; rfl
        have hchmem : ch ∈ spaceJoinL b := by
          rw [hbuf]
          exact mem_spaceJoinL_head (by rw [hp]; simp) brest
        have hstrip : pyStripL (spaceJoinL b) ≠ [] :=
          pyStripL_ne_nil_of_mem hchmem hch
        rw [← hrender]
        unfold renderChunk
        intro hcon
        apply hstrip
        have := congrArg String.data hcon
        simpa using this
  · intro hall
    have h1 : pyStripL s.data = [] := pyStripL_eq_nil_of_all hall
    unfold chunk_text sentPieces
    rw [h1]
    rfl

/-- C9 witness. -/
theorem chunk_no_empty_C9_witness :
    (∀ c ∈ chunk_text " \t " 12 900, c ≠ "")
    ∧ ((∀ ch ∈ (" \t " : String).data, pySpace ch = true) → chunk_text " \t " 12 900 = []) :=
  chunk_no_empty_C9 " \t " 12 900

/-! ## Span-loop lemmas (towards C4 and C6) -/

theorem mkSpansGo_head? (pd len start : Nat) :
    (mkSpansGo pd len start).head? =
      if start < len ∧ 0 < pd then some (start, min (start + pd) len) else none := by
  rw [mkSpansGo]
  split <;> simp_all

theorem getLast?_cons_of_ne_nil {α : Type} (a : α) {l : List α} (h : l ≠ []) :
    (a :: l).getLast? = l.getLast? := by
  cases l with
  | nil => exact absurd rfl h
  | cons b t => rfl

/-- The loop makes `⌈(len - start) / pd⌉` spans. -/
theorem mkSpansGo_length (pd : Nat) (hpd : 0 < pd) :
    ∀ n len start, len - start ≤ n →
    (mkSpansGo pd len start).length = (len - start + pd - 1) / pd := by
  intro n
  induction n with
  | zero =>
    intro len start h
    have h0 : len - start = 0 := by omega
    rw [mkSpansGo, dif_neg (by omega)]
    rw [h0, List.length_nil, Nat.zero_add, Nat.div_eq_of_lt (by omega)]
  | succ n ih =>
    intro len start h
    by_cases hlt : start < len
    · rw [mkSpansGo, dif_pos ⟨hlt, hpd⟩, List.length_cons]
      by_cases he : start + pd < len
      · have hmin : min (start + pd) len = start + pd := by omega
        rw [hmin, ih len (start + pd) (by omega)]
        have h1 : len - start + pd - 1 = (len - (start + pd) + pd - 1) + pd := by omega
        rw [h1, Nat.add_div_right _ hpd]
      · have hmin : min (start + pd) len = len := by omega
        rw [hmin, ih len len (by omega)]
        have h2 : len - len + pd - 1 = pd - 1 := by omega
        rw [h2, Nat.div_eq_of_lt (by omega)]
        have h3 : len - start + pd - 1 = pd + (len - start - 1) := by omega
        rw [h3, Nat.add_div_left _ hpd, Nat.div_eq_of_lt (by omega)]
    · rw [mkSpansGo, dif_neg (by omega), List.length_nil]
      have h0 : len - start = 0 := by omega
      rw [h0, Nat.zero_add, Nat.div_eq_of_lt (by omega)]

/-- Consecutive spans are adjacent: each span ends where the next
begins (no gap, no overlap). -/
theorem mkSpansGo_chain (pd : Nat) :
    ∀ n len start, len - start ≤ n →
    List.Chain' (fun a b : Nat × Nat => a.2 = b.1) (mkSpansGo pd len start) := by
  intro n
  induction n with
  | zero =>
    intro len start h
    rw [mkSpansGo, dif_neg (by omega)]
    exact List.chain'_nil
  | succ n ih =>
    intro len start h
    rw [mkSpansGo]
    split
    · rename_i hcond
      apply List.chain'_cons'.mpr
      refine ⟨?_, ih len (min (start + pd) len) (by omega)⟩
      intro z hz
      rw [mkSpansGo_head?] at hz
      split at hz
      · rw [Option.mem_def, Option.some.injEq] at hz
        rw [← hz]
      · simp at hz
    · exact List.chain'_nil

/-- Bounds on every produced span. -/
theorem mkSpansGo_mem (pd : Nat) :
    ∀ n len start, len - start ≤ n → ∀ sp ∈ mkSpansGo pd len start,
    start ≤ sp.1 ∧ sp.1 < sp.2 ∧ sp.2 ≤ len ∧ sp.2 - sp.1 ≤ pd := by
  intro n
  induction n with
  | zero =>
    intro len start h sp hsp
    rw [mkSpansGo, dif_neg (by omega)] at hsp
    simp at hsp
  | succ n ih =>
    intro len start h sp hsp
    rw [mkSpansGo] at hsp
    split at hsp
    · rename_i hcond
      rcases List.mem_cons.mp hsp with hsp | hsp
      · rw [hsp]
        refine ⟨le_refl _, ?_, ?_, ?_⟩ <;> simp <;> omega
      · have := ih len (min (start + pd) len) (by omega) sp hsp
        refine ⟨?_, this.2.1, this.2.2.1, this.2.2.2⟩
        have : start ≤ min (start + pd) len := by omega
        omega
    · simp at hsp

/-- When `pd` divides the remaining duration, every span has length
exactly `pd`. -/
theorem mkSpansGo_exact (pd : Nat) :
    ∀ n len start, len - start ≤ n → pd ∣ (len - start) →
    ∀ sp ∈ mkSpansGo pd len start, sp.2 = sp.1 + pd := by
  intro n
  induction n with
  | zero =>
    intro len start h _ sp hsp
    rw [mkSpansGo, dif_neg (by omega)] at hsp
    simp at hsp
  | succ n ih =>
    intro len start h hdvd sp hsp
    rw [mkSpansGo] at hsp
    split at hsp
    · rename_i hcond
      have hge : start + pd ≤ len := by
        rcases hdvd with ⟨k, hk⟩
        rcases k with _ | k
        · omega
        · have : pd ≤ len - start := by
            rw [hk]
            exact Nat.le_mul_of_pos_right pd (by omega)
          omega
      have hmin : min (start + pd) len = start + pd := by omega
      rw [hmin] at hsp
      rcases List.mem_cons.mp hsp with hsp | hsp
      · rw [hsp]
      · refine ih len (start + pd) (by omega) ?_ sp hsp
        have h1 : len - (start + pd) = (len - start) - pd := by omega
        rw [h1]
        exact Nat.dvd_sub' hdvd dvd_rfl
    · simp at hsp

/-- The last span ends at `len` and its length is
`(len - start - 1) % pd + 1`. -/
theorem mkSpansGo_getLast? (pd : Nat) (hpd : 0 < pd) :
    ∀ n len start, len - start ≤ n → start < len →
    (mkSpansGo pd len start).getLast? =
      some (len - ((len - start - 1) % pd + 1), len) := by
  intro n
  induction n with
  | zero =>
    intro len start h hlt
    omega
  | succ n ih =>
    intro len start h hlt
    rw [mkSpansGo, dif_pos ⟨hlt, hpd⟩]
    by_cases he : start + pd < len
    · have hmin : min (start + pd) len = start + pd := by omega
      rw [hmin]
      have hne : mkSpansGo pd len (start + pd) ≠ [] := by
        intro hcon
        have := mkSpansGo_head? pd len (start + pd)
        rw [hcon, if_pos ⟨he, hpd⟩] at this
        simp at this
      rw [getLast?_cons_of_ne_nil _ hne, ih len (start + pd) (by omega) he]
      have hmod : (len - start - 1) % pd = (len - (start + pd) - 1) % pd := by
        have h1 : len - (start + pd) - 1 = (len - start - 1) - pd := by omega
        rw [h1]
        exact Nat.mod_eq_sub_mod (by omega)
      rw [hmod]
    · have hmin : min (start + pd) len = len := by omega
      rw [hmin]
      have hrec : mkSpansGo pd len len = [] := by
        rw [mkSpansGo, dif_neg (by omega)]
      rw [hrec]
      have hm : (len - start - 1) % pd = len - start - 1 :=
        Nat.mod_eq_of_lt (by omega)
      rw [List.getLast?_singleton, hm]
      congr 2
      omega

/-! ## Merge-tail lemmas -/

theorem mergeTinyTail_merge {l : List (Nat × Nat)} {x y : Nat × Nat}
    {rest : List (Nat × Nat)} (h : l.reverse = y :: x :: rest)
    (hy : y.2 - y.1 < 10000) :
    mergeTinyTail l = ((x.1, y.2) :: rest).reverse := by
  unfold mergeTinyTail
  rw [h]
  simp [hy]

theorem mergeTinyTail_noop {l : List (Nat × Nat)} {x y : Nat × Nat}
    {rest : List (Nat × Nat)} (h : l.reverse = y :: x :: rest)
    (hy : ¬ (y.2 - y.1 < 10000)) :
    mergeTinyTail l = l := by
  unfold mergeTinyTail
  rw [h]
  simp [hy]

theorem mergeTinyTail_short {l : List (Nat × Nat)} (h : l.length ≤ 1) :
    mergeTinyTail l = l := by
  unfold mergeTinyTail
  rcases hr : l.reverse with _ | ⟨y, _ | ⟨x, rest⟩⟩
  · rfl
  · rfl
  · have := congrArg List.length hr
    simp at this
    omega

theorem reverse_two_of_le_length {α : Type} {l : List α} (h : 2 ≤ l.length) :
    ∃ y x rest, l.reverse = y :: x :: rest ∧ l.getLast? = some y := by
  rcases hr : l.reverse with _ | ⟨y, _ | ⟨x, rest⟩⟩
  · have hl : l = [] := by simpa using congrArg List.reverse hr
    rw [hl] at h
    simp at h
  · have hl : l = [y] := by simpa using congrArg List.reverse hr
    rw [hl] at h
    simp at h
  · refine ⟨y, x, rest, rfl, ?_⟩
    rw [← List.head?_reverse, hr]
    rfl

theorem split_big (filePath : String) (fileSize maxMb lenMs : Nat)
    (hbig : maxMb * 1024 * 1024 < fileSize) :
    split_audio_by_size filePath fileSize maxMb lenMs =
      (mergeTinyTail
        (mkSpansGo (lenMs / ceilDivN fileSize (maxMb * 1024 * 1024)) lenMs 0)).enum.map
        (fun p => (partName (to_wsl_pathCore filePath) p.1, p.2)) := by
  simp only [split_audio_by_size]
  rw [if_neg (by omega)]

/-! ## C4: the number of spans of the naive division -/

/-- C4 counterexample: with a 1 MB ceiling, a 10 000 MB + 1 byte file
(`numParts = 10001`) and a 200 030 000 ms duration, the stepping loop
produces 10002 spans whose final span lasts exactly 10 s — so the
tiny-tail merge does not apply — and `split_audio_by_size` returns
10002 segments, not `numParts = 10001`. -/
theorem split_count_C4_cex :
    ceilDivN 10485760001 (1 * 1024 * 1024) = 10001
    ∧ (∀ sp : Nat × Nat,
        (mkSpansGo (200030000 / ceilDivN 10485760001 (1 * 1024 * 1024)) 200030000 0).getLast?
          = some sp → ¬ (sp.2 - sp.1 < 10000))
    ∧ (split_audio_by_size "a" 10485760001 1 200030000).length = 10002
    ∧ (split_audio_by_size "a" 10485760001 1 200030000).length
        ≠ ceilDivN 10485760001 (1 * 1024 * 1024) := by
  have hnp : ceilDivN 10485760001 (1 * 1024 * 1024) = 10001 := by decide
  have hpd : (200030000 : Nat) / 10001 = 20000 := by decide
  have hlast := mkSpansGo_getLast? 20000 (by omega) 200030000 200030000 0 (by omega) (by omega)
  have hmod : (200030000 - 0 - 1) % 20000 + 1 = 10000 := by decide
  rw [hmod] at hlast
  have hlen := mkSpansGo_length 20000 (by omega) 200030000 200030000 0 (by omega)
  have hlen2 : (mkSpansGo 20000 200030000 0).length = 10002 := by
    rw [hlen]
  have hnoop : mergeTinyTail (mkSpansGo 20000 200030000 0) = mkSpansGo 20000 200030000 0 := by
    obtain ⟨y, x, rest, hrev, hy⟩ := reverse_two_of_le_length (l := mkSpansGo 20000 200030000 0)
      (by rw [hlen2]; omega)
    rw [hlast] at hy
    have hyv : y = (200030000 - 10000, 200030000) := (Option.some.inj hy).symm
    refine mergeTinyTail_noop hrev ?_
    rw [hyv]
    decide
  have hsplit := split_big "a" 10485760001 1 200030000 (by omega)
  have hcount : (split_audio_by_size "a" 10485760001 1 200030000).length = 10002 := by
    rw [hsplit, hnp, hpd, List.length_map, List.enum_length, hnoop, hlen2]
  refine ⟨hnp, ?_, hcount, ?_⟩
  · intro sp hsp
    rw [hnp, hpd, hlast] at hsp
    have : sp = (200030000 - 10000, 200030000) := (Option.some.inj hsp).symm
    rw [this]
    decide
  · rw [hcount, hnp]
    decide

/-- C4 amended: when the byte size exceeds the ceiling and `numParts`
divides the duration exactly and the resulting span length is at least
10 s (so the tiny-tail merge does not apply), `split_audio_by_size`
returns exactly `numParts = ceil(byteSize / maxBytes)` contiguous
non-overlapping spans of equal length `duration / numParts` covering
the entire duration, with the part names in order.  (Without the
divisibility hypothesis the stepping loop emits
`ceil(duration / (duration / numParts))` spans, which exceeds
`numParts` — see the counterexample — and the surplus tail is normally
removed by the tiny-tail merge.) -/
theorem split_exact_division_C4 (filePath : String) (fileSize maxMb lenMs : Nat)
    (hmb : 0 < maxMb)
    (hbig : maxMb * 1024 * 1024 < fileSize)
    (hdvd : ceilDivN fileSize (maxMb * 1024 * 1024) ∣ lenMs)
    (hlen : 0 < lenMs)
    (htail : 10000 ≤ lenMs / ceilDivN fileSize (maxMb * 1024 * 1024)) :
    (split_audio_by_size filePath fileSize maxMb lenMs).length
        = ceilDivN fileSize (maxMb * 1024 * 1024)
    ∧ (split_audio_by_size filePath fileSize maxMb lenMs).map Prod.snd
        = mkSpansGo (lenMs / ceilDivN fileSize (maxMb * 1024 * 1024)) lenMs 0
    ∧ List.Chain' (fun a b : Nat × Nat => a.2 = b.1)
        ((split_audio_by_size filePath fileSize maxMb lenMs).map Prod.snd)
    ∧ ((split_audio_by_size filePath fileSize maxMb lenMs).map Prod.snd).head?
        = some (0, lenMs / ceilDivN fileSize (maxMb * 1024 * 1024))
    ∧ (((split_audio_by_size filePath fileSize maxMb lenMs).map Prod.snd).getLast?).map
          Prod.snd = some lenMs
    ∧ (∀ sp ∈ (split_audio_by_size filePath fileSize maxMb lenMs).map Prod.snd,
        sp.2 - sp.1 = lenMs / ceilDivN fileSize (maxMb * 1024 * 1024))
    ∧ (split_audio_by_size filePath fileSize maxMb lenMs).map Prod.fst
        = (List.range (ceilDivN fileSize (maxMb * 1024 * 1024))).map
            (partName (to_wsl_pathCore filePath)) := by
  have hmbpos : 0 < maxMb * 1024 * 1024 := by positivity
  set np := ceilDivN fileSize (maxMb * 1024 * 1024) with hnp
  set pd := lenMs / np with hpddef
  have hnp2 : 2 ≤ np := by
    rw [hnp]
    unfold ceilDivN
    rw [Nat.le_div_iff_mul_le hmbpos]
    omega
  have hpd0 : 0 < pd := by omega
  have hmul : np * pd = lenMs := by
    rw [hpddef, Nat.mul_div_cancel' hdvd]
  have hpddvd : pd ∣ lenMs := by
    rw [← hmul]
    exact dvd_mul_left pd np
  have hpdle : pd ≤ lenMs := Nat.le_of_dvd hlen hpddvd
  have hmul' : pd * np = lenMs := by rw [mul_comm]; exact hmul
  -- length of the naive span list
  have hlen1 := mkSpansGo_length pd hpd0 lenMs lenMs 0 (by omega)
  have hlen2 : (mkSpansGo pd lenMs 0).length = np := by
    rw [hlen1]
    have h1 : lenMs - 0 + pd - 1 = pd * np + (pd - 1) := by omega
    have h2 : (pd - 1) / pd = 0 := Nat.div_eq_of_lt (by omega)
    rw [h1, Nat.mul_add_div hpd0, h2]
    omega
  -- the last naive span
  have hlast := mkSpansGo_getLast? pd hpd0 lenMs lenMs 0 (by omega) hlen
  have hmod : (lenMs - 0 - 1) % pd + 1 = pd := by
    have hA : pd * (np - 1) + pd = pd * np := by
      have hnp1 : np - 1 + 1 = np := by omega
      calc pd * (np - 1) + pd = pd * (np - 1 + 1) := by ring
        _ = pd * np := by rw [hnp1]
    have h1 : lenMs - 0 - 1 = pd * (np - 1) + (pd - 1) := by omega
    have h3 : (pd - 1) % pd = pd - 1 := Nat.mod_eq_of_lt (by omega)
    rw [h1, Nat.mul_add_mod, h3]
    omega
  rw [hmod] at hlast
  -- the merge does not apply
  have hnoop : mergeTinyTail (mkSpansGo pd lenMs 0) = mkSpansGo pd lenMs 0 := by
    obtain ⟨y, x, rest, hrev, hy⟩ := reverse_two_of_le_length (l := mkSpansGo pd lenMs 0)
      (by omega)
    rw [hlast] at hy
    have hyv : y = (lenMs - pd, lenMs) := (Option.some.injEq _ _).mp hy.symm
    refine mergeTinyTail_noop hrev ?_
    rw [hyv]
    simp only [not_lt]
    omega
  have hsplit := split_big filePath fileSize maxMb lenMs hbig
  rw [← hnp, ← hpddef] at hsplit
  rw [hsplit, hnoop]
  -- the second components of the output are exactly the naive spans
  have hsnd : ((mkSpansGo pd lenMs 0).enum.map
      (fun p => (partName (to_wsl_pathCore filePath) p.1, p.2))).map Prod.snd
      = mkSpansGo pd lenMs 0 := by
    rw [List.map_map]
    have : (Prod.snd ∘ fun p : Nat × Nat × Nat =>
        (partName (to_wsl_pathCore filePath) p.1, p.2)) = Prod.snd := by
      funext p
      rfl
    rw [this, List.enum_map_snd]
  rw [hsnd]
  refine ⟨?_, rfl, ?_, ?_, ?_, ?_, ?_⟩
  · rw [List.length_map, List.enum_length, hlen2]
  · exact mkSpansGo_chain pd lenMs lenMs 0 (by omega)
  · rw [mkSpansGo_head? pd lenMs 0, if_pos ⟨hlen, hpd0⟩]
    congr 2
    omega
  · rw [hlast]
    rfl
  · intro sp hsp
    have := mkSpansGo_exact pd lenMs lenMs 0 (by omega) (by simpa using hpddvd) sp hsp
    omega
  · rw [List.map_map]
    have : (Prod.fst ∘ fun p : Nat × Nat × Nat =>
        (partName (to_wsl_pathCore filePath) p.1, p.2))
        = (partName (to_wsl_pathCore filePath)) ∘ Prod.fst := by
      funext p
      rfl
    rw [this, ← List.map_map, List.enum_map_fst, hlen2]

/-- C4 amended witness: a 2 MB file against a 1 MB ceiling
(`numParts = 2`) and a 40 000 ms duration divisible by 2 with 20 s
spans. -/
theorem split_exact_division_C4_witness :
    (split_audio_by_size "w" 2097152 1 40000).length
      = ceilDivN 2097152 (1 * 1024 * 1024) :=
  (split_exact_division_C4 "w" 2097152 1 40000 (by omega) (by omega)
    (by decide) (by omega) (by decide)).1

/-! ## C6: the tiny-tail merge -/

/-- C6: when the naive division yields at least two spans and the last
lasts under 10 s, the result has exactly one fewer segment than the
naive division, the surviving spans are the naive ones with the tail
concatenated onto the previous span, and the merged span's duration is
the sum of the two merged spans' durations. -/
theorem split_tiny_tail_merge_C6 (filePath : String) (fileSize maxMb lenMs : Nat)
    (l : List (Nat × Nat)) (x y : Nat × Nat)
    (hbig : maxMb * 1024 * 1024 < fileSize)
    (hnaive : mkSpansGo (lenMs / ceilDivN fileSize (maxMb * 1024 * 1024)) lenMs 0
      = l ++ [x, y])
    (hdur : y.2 - y.1 < 10000) :
    (split_audio_by_size filePath fileSize maxMb lenMs).length = (l ++ [x, y]).length - 1
    ∧ (split_audio_by_size filePath fileSize maxMb lenMs).map Prod.snd = l ++ [(x.1, y.2)]
    ∧ y.2 - x.1 = (x.2 - x.1) + (y.2 - y.1) := by
  have hrev : (l ++ [x, y]).reverse = y :: x :: l.reverse := by simp
  have hmerge : mergeTinyTail (l ++ [x, y]) = l ++ [(x.1, y.2)] := by
    rw [mergeTinyTail_merge hrev hdur]
    simp
  have hsplit := split_big filePath fileSize maxMb lenMs hbig
  rw [hnaive, hmerge] at hsplit
  -- adjacency of the two merged spans
  have hchain := mkSpansGo_chain (lenMs / ceilDivN fileSize (maxMb * 1024 * 1024))
    lenMs lenMs 0 (by omega)
  rw [hnaive] at hchain
  have hadj : x.2 = y.1 := by
    rw [List.chain'_append] at hchain
    have h1 := hchain.2.1
    rw [List.chain'_cons] at h1
    exact h1.1
  have hx : x ∈ l ++ [x, y] := by simp
  have hy : y ∈ l ++ [x, y] := by simp
  rw [← hnaive] at hx hy
  have hbx := mkSpansGo_mem (lenMs / ceilDivN fileSize (maxMb * 1024 * 1024))
    lenMs lenMs 0 (by omega) x hx
  have hby := mkSpansGo_mem (lenMs / ceilDivN fileSize (maxMb * 1024 * 1024))
    lenMs lenMs 0 (by omega) y hy
  refine ⟨?_, ?_, ?_⟩
  · rw [hsplit, List.length_map, List.enum_length]
    simp
  · rw [hsplit, List.map_map]
    have : (Prod.snd ∘ fun p : Nat × Nat × Nat =>
        (partName (to_wsl_pathCore filePath) p.1, p.2)) = Prod.snd := by
      funext p
      rfl
    rw [this, List.enum_map_snd]
  · omega

/-- C6 witness: a 2 MB + 1 byte file against a 1 MB ceiling
(`numParts = 3`) and a 29 999 ms duration: spans of 9 999 ms leave a
2 ms tail, which is merged. -/
theorem split_tiny_tail_merge_C6_witness :
    (split_audio_by_size "w" 2097153 1 29999).length
      = ([((0 : Nat), (9999 : Nat)), (9999, 19998)] ++ [(19998, 29997), (29997, 29999)]).length - 1 :=
  (split_tiny_tail_merge_C6 "w" 2097153 1 29999 [(0, 9999), (9999, 19998)]
    (19998, 29997) (29997, 29999) (by omega)
    (by
      have h9 : (29999 : Nat) / ceilDivN 2097153 (1 * 1024 * 1024) = 9999 := by decide
      rw [h9]
      rw [mkSpansGo, dif_pos (by omega : (0 : Nat) < 29999 ∧ (0 : Nat) < 9999)]
      norm_num
      rw [mkSpansGo, dif_pos (by omega : (9999 : Nat) < 29999 ∧ (0 : Nat) < 9999)]
      norm_num
      rw [mkSpansGo, dif_pos (by omega : (19998 : Nat) < 29999 ∧ (0 : Nat) < 9999)]
      norm_num
      rw [mkSpansGo, dif_pos (by omega : (29997 : Nat) < 29999 ∧ (0 : Nat) < 9999)]
      norm_num
      rw [mkSpansGo, dif_neg (by omega : ¬ ((29999 : Nat) < 29999 ∧ (0 : Nat) < 9999))])
    (by omega)).1

/-! ## Filesystem lemmas (towards C1 and C10) -/

theorem to_wsl_pathCore_ne_empty {p : String} (h : p ≠ "") : to_wsl_pathCore p ≠ "" := by
  unfold to_wsl_pathCore
  split_ifs with h1 h2
  · exact h
  · split
    · intro hcon
      have hd := congrArg String.data hcon
      simp at hd
    · exact h
  · exact h

theorem isSegFile_partName (orig : String) (i : Nat) : isSegFile orig (partName orig i) := by
  unfold isSegFile partName
  have hdata : (orig ++ "_part" ++ toString i ++ ".mp3").data
      = (orig.data ++ "_part".data) ++ ((toString i).data ++ ".mp3".data) := by
    simp [String.data_append]
  rw [hdata]
  refine ⟨List.take_left _ _, ?_, ?_⟩
  · simp only [List.length_append, List.length_cons, List.length_nil]
    omega
  · have hassoc : (orig.data ++ "_part".data) ++ ((toString i).data ++ ".mp3".data)
        = ((orig.data ++ "_part".data) ++ (toString i).data) ++ ".mp3".data := by
      simp
    rw [hassoc]
    have hlen : (((orig.data ++ "_part".data) ++ (toString i).data) ++ ".mp3".data).length - 4
        = ((orig.data ++ "_part".data) ++ (toString i).data).length := by
      simp only [List.length_append, List.length_cons, List.length_nil]
      omega
    rw [hlen, List.drop_left]

theorem isSegFile_ne_empty {orig name : String} (h : isSegFile orig name) : name ≠ "" := by
  intro hcon
  rcases h with ⟨_, h2, _⟩
  rw [hcon] at h2
  have h0 : ("" : String).data = [] := rfl
  rw [h0] at h2
  simp at h2

theorem mem_of_mem_safeRm {rmFails : String → Bool} {p x : String} {fs : List String}
    (h : x ∈ safeRm rmFails p fs) : x ∈ fs := by
  unfold safeRm at h
  split_ifs at h
  · exact h
  · exact (List.mem_filter.mp h).1
  · exact h

theorem mem_of_mem_foldl_safeRm {rmFails : String → Bool} {x : String} :
    ∀ (L fs : List String),
    x ∈ L.foldl (fun f p => safeRm rmFails p f) fs → x ∈ fs := by
  intro L
  induction L with
  | nil =>
    intro fs h
    simpa using h
  | cons y T ih =>
    intro fs h
    rw [List.foldl_cons] at h
    exact mem_of_mem_safeRm (ih _ h)

theorem not_mem_foldl_safeRm {rmFails : String → Bool} (hok : ∀ s, rmFails s = false)
    {x : String} (hxne : x ≠ "") :
    ∀ (L fs : List String), x ∈ L →
    x ∉ L.foldl (fun f p => safeRm rmFails p f) fs := by
  intro L
  induction L with
  | nil =>
    intro fs h
    simp at h
  | cons y T ih =>
    intro fs hmem
    rw [List.foldl_cons]
    rcases List.mem_cons.mp hmem with heq | hT
    · subst heq
      have hnot : x ∉ safeRm rmFails x fs := by
        unfold safeRm
        split_ifs with h1 h2
        · rw [hok x] at h2
          simp at h2
        · intro hcon
          have := (List.mem_filter.mp hcon).2
          simp at this
        · intro hcon
          exact h1 ⟨hxne, hcon⟩
      intro hcon
      exact hnot (mem_of_mem_foldl_safeRm T _ hcon)
    · exact ih _ hT

theorem cleanup_removes_seg {rmFails : String → Bool} (hok : ∀ s, rmFails s = false)
    (deleteOriginal : Bool) {orig : String} (hor : orig ≠ "")
    (ps : Option (List String)) (fs : List String) {x : String}
    (hseg : isSegFile orig x) :
    x ∉ cleanup_audio_files rmFails deleteOriginal (some orig) ps fs := by
  have hxne : x ≠ "" := isSegFile_ne_empty hseg
  simp only [cleanup_audio_files]
  rw [if_pos hor]
  have hfs2 : x ∉ ((cleanupParts rmFails ps fs).filter
      (fun n => decide (isSegFile orig n))).foldl (fun f p => safeRm rmFails p f)
      (cleanupParts rmFails ps fs) := by
    by_cases hx1 : x ∈ cleanupParts rmFails ps fs
    · have hglob : x ∈ (cleanupParts rmFails ps fs).filter
          (fun n => decide (isSegFile orig n)) :=
        List.mem_filter.mpr ⟨hx1, by simpa using hseg⟩
      exact not_mem_foldl_safeRm hok hxne _ _ hglob
    · intro hcon
      exact hx1 (mem_of_mem_foldl_safeRm _ _ hcon)
  split_ifs
  · intro hcon
    exact hfs2 (mem_of_mem_safeRm hcon)
  · exact hfs2

/-! ## C1: the cleanup guarantee of `pipeline_from_audio` -/

/-- C1: on every exit path of a `pipeline_from_audio` run on an
existing file — normal return or an exception raised by splitting or by
any later stage — every segment file created during the run is absent
from the final filesystem (assuming the OS performs the deletions), and
the result is exactly the stage outcome: the produced value, or the
original exception unchanged. -/
theorem pipeline_cleanup_C1 (rmFails : String → Bool) (deleteOriginal : Bool)
    (audioPath : String) (createdCount : Nat) (splitErr stageErr : Option String)
    (outs : PipelineOutputs) (fs : List String)
    (hfs : to_wsl_pathCore audioPath ∈ fs)
    (hne : audioPath ≠ "")
    (hok : ∀ s, rmFails s = false) :
    (pipeline_from_audio rmFails deleteOriginal audioPath createdCount splitErr
        stageErr outs fs).1
      = (match splitErr with
         | some e => .error e
         | none =>
           match stageErr with
           | some e => .error e
           | none => .ok outs)
    ∧ ∀ i < createdCount,
        partName (to_wsl_pathCore audioPath) i
          ∉ (pipeline_from_audio rmFails deleteOriginal audioPath createdCount splitErr
              stageErr outs fs).2 := by
  constructor
  · simp only [pipeline_from_audio]
    rw [if_pos hfs]
    rcases splitErr with _ | e
    · rcases stageErr with _ | e2 <;> rfl
    · rfl
  · intro i _
    simp only [pipeline_from_audio]
    rw [if_pos hfs]
    exact cleanup_removes_seg hok deleteOriginal (to_wsl_pathCore_ne_empty hne) _ _
      (isSegFile_partName (to_wsl_pathCore audioPath) i)

/-- C1 witness: a run over the one-file filesystem `["a"]` that creates
one segment and then fails in a later stage: the error propagates
unchanged and the segment file is gone. -/
theorem pipeline_cleanup_C1_witness :
    (pipeline_from_audio (fun _ => false) true "a" 1 none (some "boom")
        ⟨"", [], [], "", "", ""⟩ ["a"]).1 = .error "boom"
    ∧ partName (to_wsl_pathCore "a") 0
        ∉ (pipeline_from_audio (fun _ => false) true "a" 1 none (some "boom")
            ⟨"", [], [], "", "", ""⟩ ["a"]).2 :=
  ⟨(pipeline_cleanup_C1 (fun _ => false) true "a" 1 none (some "boom")
      ⟨"", [], [], "", "", ""⟩ ["a"] (by decide) (by decide) (fun _ => rfl)).1,
   (pipeline_cleanup_C1 (fun _ => false) true "a" 1 none (some "boom")
      ⟨"", [], [], "", "", ""⟩ ["a"] (by decide) (by decide) (fun _ => rfl)).2 0
      (by omega)⟩

/-! ## C10: cleanup failures never change the pipeline outcome -/

/-- C10: the value returned (or exception propagated) by
`pipeline_from_audio` does not depend on which deletions fail during
cleanup — `_safe_rm` swallows every per-file error and the `finally`
block's own guard swallows the rest — and on an existing file it is
exactly the stage outcome. -/
theorem pipeline_result_independent_C10 (rmFails rmFails' : String → Bool)
    (deleteOriginal deleteOriginal' : Bool) (audioPath : String) (createdCount : Nat)
    (splitErr stageErr : Option String) (outs : PipelineOutputs) (fs : List String) :
    (pipeline_from_audio rmFails deleteOriginal audioPath createdCount splitErr
        stageErr outs fs).1
      = (pipeline_from_audio rmFails' deleteOriginal' audioPath createdCount splitErr
          stageErr outs fs).1
    ∧ (to_wsl_pathCore audioPath ∈ fs →
        (pipeline_from_audio rmFails deleteOriginal audioPath createdCount splitErr
            stageErr outs fs).1
          = (match splitErr with
             | some e => .error e
             | none =>
               match stageErr with
               | some e => .error e
               | none => .ok outs)) := by
  constructor
  · simp only [pipeline_from_audio]
    by_cases hfs : to_wsl_pathCore audioPath ∈ fs
    · rw [if_pos hfs, if_pos hfs]
    · rw [if_neg hfs, if_neg hfs]
  · intro hfs
    simp only [pipeline_from_audio]
    rw [if_pos hfs]
    rcases splitErr with _ | e
    · rcases stageErr with _ | e2 <;> rfl
    · rfl

/-- C10 witness. -/
theorem pipeline_result_independent_C10_witness :
    (pipeline_from_audio (fun _ => true) false "a" 1 none (some "boom")
        ⟨"", [], [], "", "", ""⟩ ["a"]).1
      = (pipeline_from_audio (fun _ => false) true "a" 1 none (some "boom")
          ⟨"", [], [], "", "", ""⟩ ["a"]).1
    ∧ (pipeline_from_audio (fun _ => true) false "a" 1 none (some "boom")
        ⟨"", [], [], "", "", ""⟩ ["a"]).1 = .error "boom" :=
  ⟨(pipeline_result_independent_C10 (fun _ => true) (fun _ => false) false true "a" 1
      none (some "boom") ⟨"", [], [], "", "", ""⟩ ["a"]).1,
   (pipeline_result_independent_C10 (fun _ => true) (fun _ => false) false true "a" 1
      none (some "boom") ⟨"", [], [], "", "", ""⟩ ["a"]).2 (by decide)⟩

end Omya
